import Mathlib

/-
Formal model of `folders_synchronization.py`: a one-way directory mirror.

The script has two parts:

* `sync_folders(source, replica)`: compares the two directories with
  `filecmp.dircmp`, copies `left_only + diff_files` entries from source to
  replica (`shutil.copytree` for directories, `shutil.copy2` for files),
  recurses into `common_dirs`, and removes `right_only` entries from the
  replica (`shutil.rmtree` / `os.remove`).

* `main(source, replica, interval, log_path)`: registers the job with
  `schedule.every(interval).seconds.do(...)`, validates that both paths
  exist and differ as strings (raising / `exit()` otherwise), then loops
  `schedule.run_pending(); time.sleep(1)` forever.

Directory trees are modelled as finite labelled trees; a regular file
carries the stat signature (`size`, `mtime`) that `filecmp`'s default
shallow comparison inspects, plus an abstract `content`. `dircmp` filters
`hide + DEFAULT_IGNORES` (`.`, `..`, `RCS`, `CVS`, `tags`, `.git`, `.hg`,
`.bzr`, `_darcs`, `__pycache__`) out of both listings before classifying, so
entries with those names are invisible to every comparison list and are never
copied, recursed into, or removed.
-/

set_option maxHeartbeats 1000000

/-- Model of a regular file: `size` and `mtime` form the stat signature used
by `filecmp`'s shallow comparison; `content` stands for the byte content. -/
structure FileData where
  size : Nat
  mtime : Nat
  content : Nat
deriving DecidableEq, Repr

/-- A directory tree: a regular file, or a directory of named entries. -/
inductive FSTree where
  | file (d : FileData) : FSTree
  | dir (entries : List (String × FSTree)) : FSTree

/-- Entry names of one directory level (`os.listdir`). -/
def names (es : List (String × FSTree)) : List String := es.map Prod.fst

/-- Find the entry called `n` in a directory listing. -/
def lookup : List (String × FSTree) → String → Option FSTree
  | [], _ => none
  | (m, t) :: es, n => if m = n then some t else lookup es n

/-- Overwrite the entry called `n` (or create it): the destination-path
effect of `shutil.copy2` / `shutil.copytree`. -/
def setEntry : List (String × FSTree) → String → FSTree → List (String × FSTree)
  | [], n, t => [(n, t)]
  | (m, u) :: es, n, t => if m = n then (n, t) :: es else (m, u) :: setEntry es n t

/-- Delete the entry called `n`: the effect of `os.remove` / `shutil.rmtree`. -/
def removeEntry : List (String × FSTree) → String → List (String × FSTree)
  | [], _ => []
  | (m, u) :: es, n => if m = n then removeEntry es n else (m, u) :: removeEntry es n

/-- Kind test, as `os.path.isdir` reports it. -/
def isDirT : FSTree → Bool
  | .file _ => false
  | .dir _ => true

/-- Shallow file comparison of `filecmp`: equal stat signature
(size and modification time), content not read. -/
def shallowEq (a b : FileData) : Bool :=
  a.size == b.size && a.mtime == b.mtime

/-- Names `filecmp.dircmp` never lists (`filecmp.DEFAULT_IGNORES`): entries
with these names are invisible to the comparison in either tree. -/
def DEFAULT_IGNORES : List String :=
  ["RCS", "CVS", "tags", ".git", ".hg", ".bzr", "_darcs", "__pycache__"]

/-- Names `dircmp` hides (`hide = [os.curdir, os.pardir]`). -/
def hideNames : List String := [".", ".."]

/-- Whether `dircmp` filters the name out of its listings
(`_filter(os.listdir(dir), self.hide + self.ignore)` in phase0). -/
def ignoredName (n : String) : Bool := decide (n ∈ hideNames ++ DEFAULT_IGNORES)

/-- Entry names of one directory level as `dircmp` phase0 produces them:
`os.listdir` minus the ignoredName and default-ignored names. -/
def visibleNames (es : List (String × FSTree)) : List String :=
  (names es).filter (fun n => !ignoredName n)

/-- Names present under source but not replica (`dircmp.left_only`). -/
def left_only (src rpl : List (String × FSTree)) : List String :=
  (visibleNames src).filter (fun n => (lookup rpl n).isNone)

/-- Names present under replica but not source (`dircmp.right_only`). -/
def right_only (src rpl : List (String × FSTree)) : List String :=
  (visibleNames rpl).filter (fun n => (lookup src n).isNone)

/-- Names present as a directory on both sides (`dircmp.common_dirs`). -/
def common_dirs (src rpl : List (String × FSTree)) : List String :=
  (visibleNames src).filter (fun n =>
    match lookup src n, lookup rpl n with
    | some (.dir _), some (.dir _) => true
    | _, _ => false)

/-- Names present as a regular file on both sides (`dircmp.common_files`). -/
def common_files (src rpl : List (String × FSTree)) : List String :=
  (visibleNames src).filter (fun n =>
    match lookup src n, lookup rpl n with
    | some (.file _), some (.file _) => true
    | _, _ => false)

/-- Names present on both sides with mismatched kinds
(`dircmp.common_funny`): file on one side, directory on the other. -/
def common_funny (src rpl : List (String × FSTree)) : List String :=
  (visibleNames src).filter (fun n =>
    match lookup src n, lookup rpl n with
    | some a, some b => isDirT a != isDirT b
    | _, _ => false)

/-- Common files whose shallow comparison differs (`dircmp.diff_files`). -/
def diff_files (src rpl : List (String × FSTree)) : List String :=
  (common_files src rpl).filter (fun n =>
    match lookup src n, lookup rpl n with
    | some (.file a), some (.file b) => !shallowEq a b
    | _, _ => false)

-- Basic lookup lemmas

theorem lookup_eq_none_iff (es : List (String × FSTree)) (n : String) :
    lookup es n = none ↔ n ∉ names es := by
  induction es with
  | nil => simp [lookup, names]
  | cons e es ih =>
    obtain ⟨m, u⟩ := e
    by_cases h : m = n
    · subst h
      simp [lookup, names]
    · simp only [lookup, if_neg h, ih, names, List.map_cons, List.mem_cons, not_or]
      constructor
      · intro hn
        exact ⟨fun he => h he.symm, hn⟩
      · intro hn
        exact hn.2

theorem lookup_isSome_of_mem {es : List (String × FSTree)} {n : String}
    (h : n ∈ names es) : (lookup es n).isSome = true := by
  rcases hl : lookup es n with _ | t
  · exact absurd ((lookup_eq_none_iff es n).mp hl) (by simp [h])
  · rfl

theorem mem_names_of_lookup {es : List (String × FSTree)} {n : String} {t : FSTree}
    (h : lookup es n = some t) : n ∈ names es := by
  by_contra hn
  rw [← lookup_eq_none_iff] at hn
  rw [h] at hn
  exact Option.noConfusion hn

theorem lookup_sizeOf {es : List (String × FSTree)} {n : String} {t : FSTree}
    (h : lookup es n = some t) : sizeOf t < sizeOf es := by
  induction es with
  | nil => simp [lookup] at h
  | cons e es ih =>
    obtain ⟨m, u⟩ := e
    simp only [lookup] at h
    by_cases hm : m = n
    · rw [if_pos hm] at h
      cases h
      have h1 : sizeOf ((m, t) :: es) = 1 + (1 + sizeOf m + sizeOf t) + sizeOf es := rfl
      omega
    · rw [if_neg hm] at h
      have := ih h
      have h1 : sizeOf ((m, u) :: es) = 1 + (1 + sizeOf m + sizeOf u) + sizeOf es := rfl
      omega

theorem setEntry_lookup_self (es : List (String × FSTree)) (n : String) (t : FSTree) :
    lookup (setEntry es n t) n = some t := by
  induction es with
  | nil => simp [setEntry, lookup]
  | cons e es ih =>
    obtain ⟨m, u⟩ := e
    by_cases h : m = n
    · simp [setEntry, h, lookup]
    · simp [setEntry, h, lookup, ih]

theorem setEntry_lookup_ne (es : List (String × FSTree)) {m n : String} (t : FSTree)
    (h : m ≠ n) : lookup (setEntry es m t) n = lookup es n := by
  induction es with
  | nil => simp [setEntry, lookup, h]
  | cons e es ih =>
    obtain ⟨k, u⟩ := e
    by_cases hk : k = m
    · subst hk
      simp [setEntry, lookup, h]
    · simp [setEntry, hk, lookup, ih]

theorem setEntry_self {es : List (String × FSTree)} {n : String} {t : FSTree}
    (h : lookup es n = some t) : setEntry es n t = es := by
  induction es with
  | nil => simp [lookup] at h
  | cons e es ih =>
    obtain ⟨m, u⟩ := e
    simp only [lookup] at h
    by_cases hm : m = n
    · rw [if_pos hm] at h
      cases h
      simp [setEntry, hm]
    · rw [if_neg hm] at h
      simp [setEntry, hm, ih h]

theorem removeEntry_lookup_self (es : List (String × FSTree)) (n : String) :
    lookup (removeEntry es n) n = none := by
  induction es with
  | nil => simp [removeEntry, lookup]
  | cons e es ih =>
    obtain ⟨m, u⟩ := e
    by_cases h : m = n
    · simpa [removeEntry, h] using ih
    · simpa [removeEntry, lookup, h] using ih

theorem removeEntry_lookup_ne (es : List (String × FSTree)) {m n : String}
    (h : m ≠ n) : lookup (removeEntry es m) n = lookup es n := by
  induction es with
  | nil => simp [removeEntry, lookup]
  | cons e es ih =>
    obtain ⟨k, u⟩ := e
    by_cases hk : k = m
    · subst hk
      simp [removeEntry, lookup, fun hh : k = n => h hh, ih]
    · simp [removeEntry, lookup, hk, ih]

/-- Per-run totals of `sync_folders` operations: `copies` counts iterations of
the copy loop (a `copytree` or `copy2` per item), `removals` counts iterations
of the removal loop (an `rmtree` or `os.remove` per item). -/
structure SyncOutcome where
  copies : Nat
  removals : Nat
deriving DecidableEq, Repr

/-- Copy loop of `sync_folders`: for each name of `left_only + diff_files`,
copy the source entry onto the replica (`shutil.copytree` when
`os.path.isdir(src_path)`, else `shutil.copy2`), counting one copy each. -/
def doCopies (src : List (String × FSTree)) :
    List String → List (String × FSTree) → List (String × FSTree) × Nat
  | [], rpl => (rpl, 0)
  | n :: rest, rpl =>
    match lookup src n with
    | some (FSTree.dir es) =>
      let r := doCopies src rest (setEntry rpl n (FSTree.dir es))
      (r.1, r.2 + 1)
    | some (FSTree.file d) =>
      let r := doCopies src rest (setEntry rpl n (FSTree.file d))
      (r.1, r.2 + 1)
    | none => doCopies src rest rpl

/-- Removal loop of `sync_folders`: for each name of `right_only`, delete the
replica entry (`shutil.rmtree` for a directory, `os.remove` for a file),
counting one removal each. -/
def doRemovals : List String → List (String × FSTree) → List (String × FSTree) × Nat
  | [], rpl => (rpl, 0)
  | n :: rest, rpl =>
    let r := doRemovals rest (removeEntry rpl n)
    (r.1, r.2 + 1)

mutual

/-- Model of `sync_folders(source, replica)`: copy `left_only + diff_files`
from source to replica, recurse into `common_dirs`, remove `right_only` from
the replica. All four `dircmp` lists are computed from the state of the
replica at entry (as `filecmp` lists both directories before the first loop
runs). Entries in `common_funny` are never touched. Returns the resulting
replica listing together with the run's operation totals. -/
def sync_folders (src rpl : List (String × FSTree)) :
    List (String × FSTree) × SyncOutcome :=
  let c := doCopies src (left_only src rpl ++ diff_files src rpl) rpl
  let r := syncCommonDirs src (common_dirs src rpl) c.1
  let d := doRemovals (right_only src rpl) r.1
  (d.1, ⟨c.2 + r.2.copies, r.2.removals + d.2⟩)
termination_by (sizeOf src, 1, 0)

/-- Recursion of `sync_folders` into the common subdirectories: for each name
of `common_dirs`, synchronize the subdirectory pair as found on disk at that
moment and store the result back in the replica listing. -/
def syncCommonDirs (src : List (String × FSTree)) (ds : List String)
    (rpl : List (String × FSTree)) : List (String × FSTree) × SyncOutcome :=
  match ds with
  | [] => (rpl, ⟨0, 0⟩)
  | n :: rest =>
    match hs : lookup src n, lookup rpl n with
    | some (FSTree.dir ses), some (FSTree.dir res) =>
      have hlt : sizeOf ses < sizeOf src := by
        have h1 := lookup_sizeOf hs
        have h2 : sizeOf (FSTree.dir ses) = 1 + sizeOf ses := by simp
        omega
      let r1 := sync_folders ses res
      let r2 := syncCommonDirs src rest (setEntry rpl n (FSTree.dir r1.1))
      (r2.1, ⟨r1.2.copies + r2.2.copies, r1.2.removals + r2.2.removals⟩)
    | _, _ => syncCommonDirs src rest rpl
termination_by (sizeOf src, 0, ds.length)

end

-- Membership in the dircmp lists

theorem mem_visibleNames {es : List (String × FSTree)} {n : String} :
    n ∈ visibleNames es ↔ n ∈ names es ∧ ignoredName n = false := by
  simp [visibleNames, List.mem_filter]

theorem mem_left_only {src rpl : List (String × FSTree)} {n : String} :
    n ∈ left_only src rpl ↔
      (n ∈ names src ∧ ignoredName n = false) ∧ lookup rpl n = none := by
  simp [left_only, mem_visibleNames, List.mem_filter, Option.isNone_iff_eq_none,
    and_assoc]

theorem mem_right_only {src rpl : List (String × FSTree)} {n : String} :
    n ∈ right_only src rpl ↔
      (n ∈ names rpl ∧ ignoredName n = false) ∧ lookup src n = none := by
  simp [right_only, mem_visibleNames, List.mem_filter, Option.isNone_iff_eq_none,
    and_assoc]

theorem mem_common_dirs {src rpl : List (String × FSTree)} {n : String} :
    n ∈ common_dirs src rpl ↔ (n ∈ names src ∧ ignoredName n = false) ∧
      (∃ a, lookup src n = some (FSTree.dir a)) ∧
      (∃ b, lookup rpl n = some (FSTree.dir b)) := by
  simp only [common_dirs, List.mem_filter, mem_visibleNames]
  rcases hs : lookup src n with _ | t
  · simp
  · rcases hr : lookup rpl n with _ | u
    · cases t <;> simp
    · cases t <;> cases u <;> simp

theorem mem_common_files {src rpl : List (String × FSTree)} {n : String} :
    n ∈ common_files src rpl ↔ (n ∈ names src ∧ ignoredName n = false) ∧
      (∃ a, lookup src n = some (FSTree.file a)) ∧
      (∃ b, lookup rpl n = some (FSTree.file b)) := by
  simp only [common_files, List.mem_filter, mem_visibleNames]
  rcases hs : lookup src n with _ | t
  · simp
  · rcases hr : lookup rpl n with _ | u
    · cases t <;> simp
    · cases t <;> cases u <;> simp

theorem mem_diff_files {src rpl : List (String × FSTree)} {n : String} :
    n ∈ diff_files src rpl ↔ (n ∈ names src ∧ ignoredName n = false) ∧
      (∃ a b, lookup src n = some (FSTree.file a) ∧ lookup rpl n = some (FSTree.file b) ∧
        shallowEq a b = false) := by
  simp only [diff_files, List.mem_filter, mem_common_files]
  rcases hs : lookup src n with _ | t
  · simp
  · rcases hr : lookup rpl n with _ | u
    · cases t <;> simp
    · cases t <;> cases u <;> simp [Bool.not_eq_true']

theorem mem_common_funny {src rpl : List (String × FSTree)} {n : String} :
    n ∈ common_funny src rpl ↔ (n ∈ names src ∧ ignoredName n = false) ∧
      (∃ a b, lookup src n = some a ∧ lookup rpl n = some b ∧ isDirT a ≠ isDirT b) := by
  simp only [common_funny, List.mem_filter, mem_visibleNames]
  rcases hs : lookup src n with _ | t
  · simp
  · rcases hr : lookup rpl n with _ | u
    · simp
    · simp [bne_iff_ne]

-- Effect of the copy loop on a single name

theorem doCopies_lookup_not_mem (src : List (String × FSTree)) (ns : List String)
    (rpl : List (String × FSTree)) {n : String} (h : n ∉ ns) :
    lookup (doCopies src ns rpl).1 n = lookup rpl n := by
  induction ns generalizing rpl with
  | nil => rfl
  | cons m rest ih =>
    have hmn : m ≠ n := fun he => h (he ▸ List.mem_cons_self m rest)
    have hrest : n ∉ rest := fun hr => h (List.mem_cons_of_mem _ hr)
    rcases hm : lookup src m with _ | t
    · simp [doCopies, hm, ih _ hrest]
    · cases t <;>
        simp [doCopies, hm, ih _ hrest, setEntry_lookup_ne rpl _ hmn]

theorem doCopies_lookup_mem (src : List (String × FSTree)) (ns : List String)
    (rpl : List (String × FSTree)) {n : String} {t : FSTree}
    (hmem : n ∈ ns) (hl : lookup src n = some t) :
    lookup (doCopies src ns rpl).1 n = some t := by
  induction ns generalizing rpl with
  | nil => cases hmem
  | cons m rest ih =>
    by_cases hmn : m = n
    · subst hmn
      by_cases hr : m ∈ rest
      · cases t <;> simp [doCopies, hl, ih _ hr]
      · cases t <;>
          simp [doCopies, hl, doCopies_lookup_not_mem src rest _ hr, setEntry_lookup_self]
    · have hr : n ∈ rest := by
        rcases List.mem_cons.mp hmem with he | hr
        · exact absurd he.symm hmn
        · exact hr
      rcases hm : lookup src m with _ | u
      · simp [doCopies, hm, ih _ hr]
      · cases u <;> simp [doCopies, hm, ih _ hr]

-- Effect of the removal loop on a single name

theorem doRemovals_lookup_not_mem (ns : List String) (rpl : List (String × FSTree))
    {n : String} (h : n ∉ ns) :
    lookup (doRemovals ns rpl).1 n = lookup rpl n := by
  induction ns generalizing rpl with
  | nil => rfl
  | cons m rest ih =>
    have hmn : m ≠ n := fun he => h (he ▸ List.mem_cons_self m rest)
    have hrest : n ∉ rest := fun hr => h (List.mem_cons_of_mem _ hr)
    simp [doRemovals, ih _ hrest, removeEntry_lookup_ne rpl hmn]

theorem doRemovals_lookup_mem (ns : List String) (rpl : List (String × FSTree))
    {n : String} (h : n ∈ ns) :
    lookup (doRemovals ns rpl).1 n = none := by
  induction ns generalizing rpl with
  | nil => cases h
  | cons m rest ih =>
    by_cases hmn : m = n
    · subst hmn
      by_cases hr : m ∈ rest
      · simp [doRemovals, ih _ hr]
      · simp [doRemovals, doRemovals_lookup_not_mem rest _ hr, removeEntry_lookup_self]
    · have hr : n ∈ rest := by
        rcases List.mem_cons.mp h with he | hr
        · exact absurd he.symm hmn
        · exact hr
      simp [doRemovals, ih _ hr]

-- Step equations for the common-directory recursion

theorem syncCommonDirs_nil (src rpl : List (String × FSTree)) :
    syncCommonDirs src [] rpl = (rpl, ⟨0, 0⟩) := by
  simp [syncCommonDirs]

theorem syncCommonDirs_cons_dir (src : List (String × FSTree)) (m : String)
    (rest : List String) (rpl : List (String × FSTree))
    {ses res : List (String × FSTree)}
    (hsm : lookup src m = some (FSTree.dir ses))
    (hrm : lookup rpl m = some (FSTree.dir res)) :
    syncCommonDirs src (m :: rest) rpl =
      ((syncCommonDirs src rest
          (setEntry rpl m (FSTree.dir (sync_folders ses res).1))).1,
        ⟨(sync_folders ses res).2.copies +
            (syncCommonDirs src rest
              (setEntry rpl m (FSTree.dir (sync_folders ses res).1))).2.copies,
          (sync_folders ses res).2.removals +
            (syncCommonDirs src rest
              (setEntry rpl m (FSTree.dir (sync_folders ses res).1))).2.removals⟩) := by
  rw [syncCommonDirs]
  split
  · next ses2 res2 hs2 hr2 =>
      rw [hsm] at hs2
      rw [hrm] at hr2
      cases hs2
      cases hr2
      rfl
  · next hnot =>
      exact (hnot ses res hsm hrm).elim

theorem syncCommonDirs_cons_other (src : List (String × FSTree)) (m : String)
    (rest : List String) (rpl : List (String × FSTree))
    (h : ∀ ses res, ¬(lookup src m = some (FSTree.dir ses) ∧
      lookup rpl m = some (FSTree.dir res))) :
    syncCommonDirs src (m :: rest) rpl = syncCommonDirs src rest rpl := by
  rw [syncCommonDirs]
  split
  · next ses2 res2 hs2 hr2 =>
      exact absurd ⟨hs2, hr2⟩ (h ses2 res2)
  · rfl

-- Effect of the common-directory recursion on a single name

theorem syncCommonDirs_lookup_not_mem (src : List (String × FSTree)) (ds : List String)
    (rpl : List (String × FSTree)) {n : String} (h : n ∉ ds) :
    lookup (syncCommonDirs src ds rpl).1 n = lookup rpl n := by
  induction ds generalizing rpl with
  | nil => simp [syncCommonDirs_nil]
  | cons m rest ih =>
    have hmn : m ≠ n := fun he => h (he ▸ List.mem_cons_self m rest)
    have hrest : n ∉ rest := fun hr => h (List.mem_cons_of_mem _ hr)
    by_cases hboth : ∃ ses res, lookup src m = some (FSTree.dir ses) ∧
        lookup rpl m = some (FSTree.dir res)
    · obtain ⟨ses, res, hsm, hrm⟩ := hboth
      rw [syncCommonDirs_cons_dir src m rest rpl hsm hrm]
      simp only [ih _ hrest]
      exact setEntry_lookup_ne rpl _ hmn
    · rw [syncCommonDirs_cons_other src m rest rpl
        (fun ses res hc => hboth ⟨ses, res, hc⟩)]
      exact ih _ hrest

theorem syncCommonDirs_lookup_mem (src : List (String × FSTree)) (ds : List String)
    (rpl : List (String × FSTree)) {n : String} {ses res : List (String × FSTree)}
    (hnd : ds.Nodup) (hmem : n ∈ ds)
    (hls : lookup src n = some (FSTree.dir ses))
    (hlr : lookup rpl n = some (FSTree.dir res)) :
    lookup (syncCommonDirs src ds rpl).1 n = some (FSTree.dir (sync_folders ses res).1) := by
  induction ds generalizing rpl res with
  | nil => cases hmem
  | cons m rest ih =>
    by_cases hmn : m = n
    · subst hmn
      have hr : m ∉ rest := (List.nodup_cons.mp hnd).1
      rw [syncCommonDirs_cons_dir src m rest rpl hls hlr]
      simp only [syncCommonDirs_lookup_not_mem src rest _ hr]
      exact setEntry_lookup_self rpl m _
    · have hr : n ∈ rest := by
        rcases List.mem_cons.mp hmem with he | hr
        · exact absurd he.symm hmn
        · exact hr
      have hnd2 : rest.Nodup := (List.nodup_cons.mp hnd).2
      by_cases hboth : ∃ a b, lookup src m = some (FSTree.dir a) ∧
          lookup rpl m = some (FSTree.dir b)
      · obtain ⟨a, b, hsm, hrm⟩ := hboth
        rw [syncCommonDirs_cons_dir src m rest rpl hsm hrm]
        exact ih _ hnd2 hr (by rw [setEntry_lookup_ne rpl _ hmn]; exact hlr)
      · rw [syncCommonDirs_cons_other src m rest rpl
          (fun a b hc => hboth ⟨a, b, hc⟩)]
        exact ih _ hnd2 hr hlr

/-- Unfolded form of one `sync_folders` level: copies, then recursion into
common subdirectories, then removals. -/
theorem sync_folders_eq (src rpl : List (String × FSTree)) :
    sync_folders src rpl =
      ((doRemovals (right_only src rpl)
          (syncCommonDirs src (common_dirs src rpl)
            (doCopies src (left_only src rpl ++ diff_files src rpl) rpl).1).1).1,
        ⟨(doCopies src (left_only src rpl ++ diff_files src rpl) rpl).2 +
            (syncCommonDirs src (common_dirs src rpl)
              (doCopies src (left_only src rpl ++ diff_files src rpl) rpl).1).2.copies,
          (syncCommonDirs src (common_dirs src rpl)
            (doCopies src (left_only src rpl ++ diff_files src rpl) rpl).1).2.removals +
            (doRemovals (right_only src rpl)
              (syncCommonDirs src (common_dirs src rpl)
                (doCopies src (left_only src rpl ++ diff_files src rpl) rpl).1).1).2⟩) := by
  rw [sync_folders]

-- How one run of sync_folders transforms a single name of the replica,
-- by the case analysis of filecmp.dircmp

/-- Names filtered out by `dircmp` (hide + DEFAULT_IGNORES) appear in none of
the comparison lists, so `sync_folders` leaves the replica entry of such a
name exactly as it was (and copies nothing for it). -/
theorem lookup_sync_hidden {src rpl : List (String × FSTree)} {n : String}
    (hv : ignoredName n = true) :
    lookup (sync_folders src rpl).1 n = lookup rpl n := by
  rw [sync_folders_eq]
  have hro : n ∉ right_only src rpl := by
    intro hm
    have h2 := (mem_right_only.mp hm).1.2
    rw [hv] at h2
    cases h2
  have hcd : n ∉ common_dirs src rpl := by
    intro hm
    have h2 := (mem_common_dirs.mp hm).1.2
    rw [hv] at h2
    cases h2
  have hlo : n ∉ left_only src rpl := by
    intro hm
    have h2 := (mem_left_only.mp hm).1.2
    rw [hv] at h2
    cases h2
  have hdf : n ∉ diff_files src rpl := by
    intro hm
    have h2 := (mem_diff_files.mp hm).1.2
    rw [hv] at h2
    cases h2
  have hcp : n ∉ left_only src rpl ++ diff_files src rpl := by
    intro hm
    rcases List.mem_append.mp hm with h2 | h2
    · exact hlo h2
    · exact hdf h2
  rw [doRemovals_lookup_not_mem _ _ hro, syncCommonDirs_lookup_not_mem _ _ _ hcd,
    doCopies_lookup_not_mem _ _ _ hcp]

theorem lookup_sync_src_only {src rpl : List (String × FSTree)} {n : String}
    {t : FSTree} (hv : ignoredName n = false) (hs : lookup src n = some t)
    (hr : lookup rpl n = none) :
    lookup (sync_folders src rpl).1 n = some t := by
  rw [sync_folders_eq]
  have hro : n ∉ right_only src rpl := by
    intro hm
    have h2 := (mem_right_only.mp hm).2
    rw [hs] at h2
    cases h2
  have hcd : n ∉ common_dirs src rpl := by
    intro hm
    obtain ⟨-, -, b, hb⟩ := mem_common_dirs.mp hm
    rw [hr] at hb
    cases hb
  have hlo : n ∈ left_only src rpl :=
    mem_left_only.mpr ⟨⟨mem_names_of_lookup hs, hv⟩, hr⟩
  rw [doRemovals_lookup_not_mem _ _ hro, syncCommonDirs_lookup_not_mem _ _ _ hcd]
  exact doCopies_lookup_mem _ _ _ (List.mem_append_left _ hlo) hs

theorem lookup_sync_diff_file {src rpl : List (String × FSTree)} {n : String}
    {a b : FileData} (hv : ignoredName n = false)
    (hs : lookup src n = some (FSTree.file a))
    (hr : lookup rpl n = some (FSTree.file b)) (hne : shallowEq a b = false) :
    lookup (sync_folders src rpl).1 n = some (FSTree.file a) := by
  rw [sync_folders_eq]
  have hro : n ∉ right_only src rpl := by
    intro hm
    have h2 := (mem_right_only.mp hm).2
    rw [hs] at h2
    cases h2
  have hcd : n ∉ common_dirs src rpl := by
    intro hm
    obtain ⟨-, ⟨a2, ha2⟩, -⟩ := mem_common_dirs.mp hm
    rw [hs] at ha2
    cases ha2
  have hdf : n ∈ diff_files src rpl :=
    mem_diff_files.mpr ⟨⟨mem_names_of_lookup hs, hv⟩, a, b, hs, hr, hne⟩
  rw [doRemovals_lookup_not_mem _ _ hro, syncCommonDirs_lookup_not_mem _ _ _ hcd]
  exact doCopies_lookup_mem _ _ _ (List.mem_append_right _ hdf) hs

theorem lookup_sync_same_file {src rpl : List (String × FSTree)} {n : String}
    {a b : FileData} (hs : lookup src n = some (FSTree.file a))
    (hr : lookup rpl n = some (FSTree.file b)) (heq : shallowEq a b = true) :
    lookup (sync_folders src rpl).1 n = some (FSTree.file b) := by
  cases hv : ignoredName n with
  | true =>
    rw [lookup_sync_hidden hv]
    exact hr
  | false =>
    rw [sync_folders_eq]
    have hro : n ∉ right_only src rpl := by
      intro hm
      have h2 := (mem_right_only.mp hm).2
      rw [hs] at h2
      cases h2
    have hcd : n ∉ common_dirs src rpl := by
      intro hm
      obtain ⟨-, ⟨a2, ha2⟩, -⟩ := mem_common_dirs.mp hm
      rw [hs] at ha2
      cases ha2
    have hlo : n ∉ left_only src rpl := by
      intro hm
      have h2 := (mem_left_only.mp hm).2
      rw [hr] at h2
      cases h2
    have hdf : n ∉ diff_files src rpl := by
      intro hm
      obtain ⟨-, a2, b2, ha2, hb2, hne2⟩ := mem_diff_files.mp hm
      rw [hs] at ha2
      rw [hr] at hb2
      cases ha2
      cases hb2
      rw [heq] at hne2
      cases hne2
    have hcp : n ∉ left_only src rpl ++ diff_files src rpl := by
      intro hm
      rcases List.mem_append.mp hm with h2 | h2
      · exact hlo h2
      · exact hdf h2
    rw [doRemovals_lookup_not_mem _ _ hro, syncCommonDirs_lookup_not_mem _ _ _ hcd,
      doCopies_lookup_not_mem _ _ _ hcp]
    exact hr

theorem lookup_sync_common_dir {src rpl : List (String × FSTree)} {n : String}
    {ses res : List (String × FSTree)} (hnd : (names src).Nodup)
    (hv : ignoredName n = false)
    (hs : lookup src n = some (FSTree.dir ses))
    (hr : lookup rpl n = some (FSTree.dir res)) :
    lookup (sync_folders src rpl).1 n =
      some (FSTree.dir (sync_folders ses res).1) := by
  rw [sync_folders_eq]
  have hro : n ∉ right_only src rpl := by
    intro hm
    have h2 := (mem_right_only.mp hm).2
    rw [hs] at h2
    cases h2
  have hlo : n ∉ left_only src rpl := by
    intro hm
    have h2 := (mem_left_only.mp hm).2
    rw [hr] at h2
    cases h2
  have hdf : n ∉ diff_files src rpl := by
    intro hm
    obtain ⟨-, a2, b2, ha2, -⟩ := mem_diff_files.mp hm
    rw [hs] at ha2
    cases ha2
  have hcp : n ∉ left_only src rpl ++ diff_files src rpl := by
    intro hm
    rcases List.mem_append.mp hm with h2 | h2
    · exact hlo h2
    · exact hdf h2
  have hcd : n ∈ common_dirs src rpl :=
    mem_common_dirs.mpr ⟨⟨mem_names_of_lookup hs, hv⟩, ⟨ses, hs⟩, ⟨res, hr⟩⟩
  have hcdnd : (common_dirs src rpl).Nodup := (hnd.filter _).filter _
  rw [doRemovals_lookup_not_mem _ _ hro]
  exact syncCommonDirs_lookup_mem src _ _ hcdnd hcd hs
    (by rw [doCopies_lookup_not_mem _ _ _ hcp]; exact hr)

theorem lookup_sync_funny {src rpl : List (String × FSTree)} {n : String}
    {a b : FSTree} (hs : lookup src n = some a) (hr : lookup rpl n = some b)
    (hk : isDirT a ≠ isDirT b) :
    lookup (sync_folders src rpl).1 n = some b := by
  cases hv : ignoredName n with
  | true =>
    rw [lookup_sync_hidden hv]
    exact hr
  | false =>
    rw [sync_folders_eq]
    have hro : n ∉ right_only src rpl := by
      intro hm
      have h2 := (mem_right_only.mp hm).2
      rw [hs] at h2
      cases h2
    have hcd : n ∉ common_dirs src rpl := by
      intro hm
      obtain ⟨-, ⟨a2, ha2⟩, b2, hb2⟩ := mem_common_dirs.mp hm
      rw [hs] at ha2
      rw [hr] at hb2
      cases ha2
      cases hb2
      exact hk rfl
    have hlo : n ∉ left_only src rpl := by
      intro hm
      have h2 := (mem_left_only.mp hm).2
      rw [hr] at h2
      cases h2
    have hdf : n ∉ diff_files src rpl := by
      intro hm
      obtain ⟨-, a2, b2, ha2, hb2, -⟩ := mem_diff_files.mp hm
      rw [hs] at ha2
      rw [hr] at hb2
      cases ha2
      cases hb2
      exact hk rfl
    have hcp : n ∉ left_only src rpl ++ diff_files src rpl := by
      intro hm
      rcases List.mem_append.mp hm with h2 | h2
      · exact hlo h2
      · exact hdf h2
    rw [doRemovals_lookup_not_mem _ _ hro, syncCommonDirs_lookup_not_mem _ _ _ hcd,
      doCopies_lookup_not_mem _ _ _ hcp]
    exact hr

theorem lookup_sync_rpl_only {src rpl : List (String × FSTree)} {n : String}
    (hv : ignoredName n = false) (hs : lookup src n = none) :
    lookup (sync_folders src rpl).1 n = none := by
  rw [sync_folders_eq]
  have hnames : n ∉ names src := (lookup_eq_none_iff src n).mp hs
  have hlo : n ∉ left_only src rpl := fun hm => hnames (mem_left_only.mp hm).1.1
  have hdf : n ∉ diff_files src rpl := fun hm => hnames (mem_diff_files.mp hm).1.1
  have hcd : n ∉ common_dirs src rpl := fun hm => hnames (mem_common_dirs.mp hm).1.1
  have hcp : n ∉ left_only src rpl ++ diff_files src rpl := by
    intro hm
    rcases List.mem_append.mp hm with h2 | h2
    · exact hlo h2
    · exact hdf h2
  rcases hrn : lookup rpl n with _ | b
  · have hro : n ∉ right_only src rpl := by
      intro hm
      exact absurd (mem_right_only.mp hm).1.1 ((lookup_eq_none_iff rpl n).mp hrn)
    rw [doRemovals_lookup_not_mem _ _ hro, syncCommonDirs_lookup_not_mem _ _ _ hcd,
      doCopies_lookup_not_mem _ _ _ hcp]
    exact hrn
  · have hro : n ∈ right_only src rpl :=
      mem_right_only.mpr ⟨⟨mem_names_of_lookup hrn, hv⟩, hs⟩
    exact doRemovals_lookup_mem _ _ hro

/-- Well-formed tree: entry names are unique at every directory level, as a
real directory listing guarantees. -/
def wfT : FSTree → Bool
  | .file _ => true
  | .dir [] => true
  | .dir ((n, t) :: es) => (lookup es n).isNone && wfT t && wfT (.dir es)

/-- Well-formed directory listing. -/
def wfE (es : List (String × FSTree)) : Bool := wfT (FSTree.dir es)

theorem wfE_nodup {es : List (String × FSTree)} (h : wfE es = true) :
    (names es).Nodup := by
  induction es with
  | nil => simp [names]
  | cons e es ih =>
    obtain ⟨m, u⟩ := e
    simp only [wfE, wfT, Bool.and_eq_true] at h
    obtain ⟨⟨h1, h2⟩, h3⟩ := h
    refine List.nodup_cons.mpr ⟨?_, ih h3⟩
    have h4 := Option.isNone_iff_eq_none.mp h1
    rw [lookup_eq_none_iff] at h4
    exact h4

theorem wfE_lookup {es : List (String × FSTree)} {n : String} {t : FSTree}
    (h : wfE es = true) (hl : lookup es n = some t) : wfT t = true := by
  induction es with
  | nil => simp [lookup] at hl
  | cons e es ih =>
    obtain ⟨m, u⟩ := e
    simp only [wfE, wfT, Bool.and_eq_true] at h
    obtain ⟨⟨h1, h2⟩, h3⟩ := h
    simp only [lookup] at hl
    by_cases hm : m = n
    · rw [if_pos hm] at hl
      cases hl
      exact h2
    · rw [if_neg hm] at hl
      exact ih h3 hl

theorem wfE_sub {es ses : List (String × FSTree)} {n : String}
    (h : wfE es = true) (hl : lookup es n = some (FSTree.dir ses)) :
    wfE ses = true :=
  wfE_lookup h hl

mutual

/-- Report of a fresh comparison of two trees, recursing through the common
directories exactly as `compare`/`reconcile` would: the level's `left_only`,
`right_only` and `diff_files` lists are empty, with `checkFunny = true` the
level's `common_funny` (type-mismatch) list is empty as well, and every common
subdirectory pair satisfies the same condition. -/
def convergedAt (checkFunny : Bool) (src rpl : List (String × FSTree)) : Bool :=
  (left_only src rpl).isEmpty && (right_only src rpl).isEmpty &&
    (diff_files src rpl).isEmpty &&
    (!checkFunny || (common_funny src rpl).isEmpty) &&
    allConvergedAt checkFunny src (common_dirs src rpl) rpl
termination_by (sizeOf src, 1, 0)

/-- Conjunction of `convergedAt` over the listed common subdirectories. -/
def allConvergedAt (checkFunny : Bool) (src : List (String × FSTree))
    (ds : List String) (rpl : List (String × FSTree)) : Bool :=
  match ds with
  | [] => true
  | n :: rest =>
    (match hs : lookup src n, lookup rpl n with
     | some (FSTree.dir ses), some (FSTree.dir res) =>
       have hlt : sizeOf ses < sizeOf src := by
         have h1 := lookup_sizeOf hs
         have h2 : sizeOf (FSTree.dir ses) = 1 + sizeOf ses := by simp
         omega
       convergedAt checkFunny ses res
     | _, _ => true) &&
    allConvergedAt checkFunny src rest rpl
termination_by (sizeOf src, 0, ds.length)

end

-- Step equations for allConvergedAt

theorem allConvergedAt_nil (cf : Bool) (src rpl : List (String × FSTree)) :
    allConvergedAt cf src [] rpl = true := by
  simp [allConvergedAt]

theorem allConvergedAt_cons_dir (cf : Bool) (src : List (String × FSTree))
    (m : String) (rest : List String) (rpl : List (String × FSTree))
    {ses res : List (String × FSTree)}
    (hsm : lookup src m = some (FSTree.dir ses))
    (hrm : lookup rpl m = some (FSTree.dir res)) :
    allConvergedAt cf src (m :: rest) rpl =
      (convergedAt cf ses res && allConvergedAt cf src rest rpl) := by
  rw [allConvergedAt]
  congr 1
  split
  · next ses2 res2 hs2 hr2 =>
      rw [hsm] at hs2
      rw [hrm] at hr2
      cases hs2
      cases hr2
      rfl
  · next hnot =>
      exact (hnot ses res hsm hrm).elim

theorem allConvergedAt_cons_other (cf : Bool) (src : List (String × FSTree))
    (m : String) (rest : List String) (rpl : List (String × FSTree))
    (h : ∀ ses res, ¬(lookup src m = some (FSTree.dir ses) ∧
      lookup rpl m = some (FSTree.dir res))) :
    allConvergedAt cf src (m :: rest) rpl = allConvergedAt cf src rest rpl := by
  rw [allConvergedAt]
  split
  · next ses2 res2 hs2 hr2 =>
      exact absurd ⟨hs2, hr2⟩ (h ses2 res2)
  · rw [Bool.true_and]

theorem allConvergedAt_of_forall (cf : Bool) (src : List (String × FSTree))
    (ds : List String) (rpl : List (String × FSTree))
    (h : ∀ n ∈ ds, ∀ ses res, lookup src n = some (FSTree.dir ses) →
      lookup rpl n = some (FSTree.dir res) → convergedAt cf ses res = true) :
    allConvergedAt cf src ds rpl = true := by
  induction ds with
  | nil => exact allConvergedAt_nil cf src rpl
  | cons m rest ih =>
    have hrest : allConvergedAt cf src rest rpl = true :=
      ih (fun n hn => h n (List.mem_cons_of_mem _ hn))
    by_cases hboth : ∃ ses res, lookup src m = some (FSTree.dir ses) ∧
        lookup rpl m = some (FSTree.dir res)
    · obtain ⟨ses, res, hsm, hrm⟩ := hboth
      rw [allConvergedAt_cons_dir cf src m rest rpl hsm hrm, hrest,
        h m (List.mem_cons_self m rest) ses res hsm hrm]
      rfl
    · rw [allConvergedAt_cons_other cf src m rest rpl
        (fun ses res hc => hboth ⟨ses, res, hc⟩)]
      exact hrest

theorem allConvergedAt_forall {cf : Bool} {src : List (String × FSTree)}
    {ds : List String} {rpl : List (String × FSTree)}
    (h : allConvergedAt cf src ds rpl = true) :
    ∀ n ∈ ds, ∀ ses res, lookup src n = some (FSTree.dir ses) →
      lookup rpl n = some (FSTree.dir res) → convergedAt cf ses res = true := by
  induction ds with
  | nil => intro n hn; cases hn
  | cons m rest ih =>
    intro n hn ses res hsn hrn
    rcases List.mem_cons.mp hn with he | hmem
    · subst he
      rw [allConvergedAt_cons_dir cf src n rest rpl hsn hrn,
        Bool.and_eq_true] at h
      exact h.1
    · by_cases hboth : ∃ a b, lookup src m = some (FSTree.dir a) ∧
          lookup rpl m = some (FSTree.dir b)
      · obtain ⟨a, b, hsm, hrm⟩ := hboth
        rw [allConvergedAt_cons_dir cf src m rest rpl hsm hrm,
          Bool.and_eq_true] at h
        exact ih h.2 n hmem ses res hsn hrn
      · rw [allConvergedAt_cons_other cf src m rest rpl
          (fun a b hc => hboth ⟨a, b, hc⟩)] at h
        exact ih h n hmem ses res hsn hrn

-- Convergence of sync_folders

theorem shallowEq_refl (a : FileData) : shallowEq a a = true := by
  simp [shallowEq]

theorem lookup_isNone_false_of_mem {es : List (String × FSTree)} {n : String}
    (h : n ∈ names es) : (lookup es n).isNone = false := by
  rcases hl : lookup es n with _ | t
  · exact absurd ((lookup_eq_none_iff es n).mp hl) (by simp [h])
  · rfl

theorem convergedAt_intro (cf : Bool) (src rpl : List (String × FSTree))
    (h1 : left_only src rpl = []) (h2 : right_only src rpl = [])
    (h3 : diff_files src rpl = [])
    (h4 : cf = true → common_funny src rpl = [])
    (h5 : allConvergedAt cf src (common_dirs src rpl) rpl = true) :
    convergedAt cf src rpl = true := by
  rw [convergedAt]
  cases cf with
  | false => simp [h1, h2, h3, h5]
  | true => simp [h1, h2, h3, h4 rfl, h5]

theorem convergedAt_parts {cf : Bool} {src rpl : List (String × FSTree)}
    (h : convergedAt cf src rpl = true) :
    left_only src rpl = [] ∧ right_only src rpl = [] ∧ diff_files src rpl = [] ∧
      allConvergedAt cf src (common_dirs src rpl) rpl = true := by
  rw [convergedAt] at h
  simp only [Bool.and_eq_true, List.isEmpty_iff] at h
  exact ⟨h.1.1.1.1, h.1.1.1.2, h.1.1.2, h.2⟩

theorem convergedAt_self : ∀ (k : Nat) (es : List (String × FSTree)),
    sizeOf es < k → convergedAt false es es = true := by
  intro k
  induction k with
  | zero => intro es h; omega
  | succ k ih =>
    intro es hk
    apply convergedAt_intro
    · rw [left_only, List.filter_eq_nil_iff]
      intro n hn
      simp [lookup_isNone_false_of_mem (mem_visibleNames.mp hn).1]
    · rw [right_only, List.filter_eq_nil_iff]
      intro n hn
      simp [lookup_isNone_false_of_mem (mem_visibleNames.mp hn).1]
    · rw [diff_files, List.filter_eq_nil_iff]
      intro n hn
      obtain ⟨-, ⟨a, ha⟩, -⟩ := mem_common_files.mp hn
      simp [ha, shallowEq_refl]
    · intro hc
      cases hc
    · apply allConvergedAt_of_forall
      intro n hn ses res hs1 hs2
      rw [hs1] at hs2
      cases hs2
      have hlt : sizeOf ses < k := by
        have h1 := lookup_sizeOf hs1
        have h2 : sizeOf (FSTree.dir ses) = 1 + sizeOf ses := by simp
        omega
      exact ih ses hlt

theorem lookup_sync_isSome {src rpl : List (String × FSTree)} {n : String}
    {t : FSTree} (hnd : (names src).Nodup) (hv : ignoredName n = false)
    (hs : lookup src n = some t) :
    ∃ u, lookup (sync_folders src rpl).1 n = some u := by
  rcases hr : lookup rpl n with _ | u
  · exact ⟨t, lookup_sync_src_only hv hs hr⟩
  · cases t with
    | file a =>
      cases u with
      | file b =>
        cases hsh : shallowEq a b with
        | true => exact ⟨FSTree.file b, lookup_sync_same_file hs hr hsh⟩
        | false => exact ⟨FSTree.file a, lookup_sync_diff_file hv hs hr hsh⟩
      | dir b =>
        exact ⟨FSTree.dir b, lookup_sync_funny hs hr (by simp [isDirT])⟩
    | dir a =>
      cases u with
      | file b =>
        exact ⟨FSTree.file b, lookup_sync_funny hs hr (by simp [isDirT])⟩
      | dir b =>
        exact ⟨FSTree.dir (sync_folders a b).1,
          lookup_sync_common_dir hnd hv hs hr⟩

/-- Partial convergence of one errorless run: after `sync_folders`, a fresh
comparison of source against the new replica finds no source-only entries, no
replica-only entries and no differing files at any level reachable through
common directories (type mismatches are NOT covered: `checkFunny := false`). -/
theorem sync_folders_converges_aux : ∀ (k : Nat) (src rpl : List (String × FSTree)),
    sizeOf src < k → wfE src = true →
    convergedAt false src (sync_folders src rpl).1 = true := by
  intro k
  induction k with
  | zero => intro src rpl h; omega
  | succ k ih =>
    intro src rpl hk hwf
    have hnd : (names src).Nodup := wfE_nodup hwf
    apply convergedAt_intro
    · rw [left_only, List.filter_eq_nil_iff]
      intro n hn
      obtain ⟨hmem, hv⟩ := mem_visibleNames.mp hn
      obtain ⟨t, ht⟩ := Option.isSome_iff_exists.mp (lookup_isSome_of_mem hmem)
      obtain ⟨u, hu⟩ := @lookup_sync_isSome src rpl n t hnd hv ht
      simp [hu]
    · rw [right_only, List.filter_eq_nil_iff]
      intro n hn
      obtain ⟨hmem, hv⟩ := mem_visibleNames.mp hn
      rcases hsn : lookup src n with _ | t
      · have := @lookup_sync_rpl_only src rpl n hv hsn
        rw [lookup_eq_none_iff] at this
        exact absurd hmem this
      · simp
    · rw [diff_files, List.filter_eq_nil_iff]
      intro n hn
      obtain ⟨⟨-, hv⟩, ⟨a, ha⟩, ⟨b, hb⟩⟩ := mem_common_files.mp hn
      rw [ha, hb]
      suffices hab : shallowEq a b = true by simp [hab]
      rcases hr : lookup rpl n with _ | u
      · have := @lookup_sync_src_only src rpl n _ hv ha hr
        rw [this] at hb
        cases hb
        exact shallowEq_refl a
      · cases u with
        | file c =>
          cases hsh : shallowEq a c with
          | true =>
            have := lookup_sync_same_file ha hr hsh
            rw [this] at hb
            cases hb
            exact hsh
          | false =>
            have := lookup_sync_diff_file hv ha hr hsh
            rw [this] at hb
            cases hb
            exact shallowEq_refl a
        | dir c =>
          have := lookup_sync_funny ha hr (by simp [isDirT])
          rw [this] at hb
          cases hb
    · intro hc
      cases hc
    · apply allConvergedAt_of_forall
      intro n hn ses res hsn hrn
      have hv : ignoredName n = false := (mem_common_dirs.mp hn).1.2
      have hszs : sizeOf ses < k := by
        have h1 := lookup_sizeOf hsn
        have h2 : sizeOf (FSTree.dir ses) = 1 + sizeOf ses := by simp
        omega
      rcases hr : lookup rpl n with _ | u
      · have := @lookup_sync_src_only src rpl n _ hv hsn hr
        rw [this] at hrn
        cases hrn
        exact convergedAt_self (sizeOf ses + 1) ses (by omega)
      · cases u with
        | file c =>
          have := lookup_sync_funny hsn hr (by simp [isDirT])
          rw [this] at hrn
          cases hrn
        | dir res0 =>
          have := lookup_sync_common_dir hnd hv hsn hr
          rw [this] at hrn
          cases hrn
          exact ih ses res0 hszs (wfE_sub hwf hsn)

-- A converged pair is a fixed point: the run performs no operation

theorem syncCommonDirs_noop (src : List (String × FSTree)) (ds : List String)
    (rpl : List (String × FSTree))
    (h : ∀ n ∈ ds, ∀ ses res, lookup src n = some (FSTree.dir ses) →
      lookup rpl n = some (FSTree.dir res) → sync_folders ses res = (res, ⟨0, 0⟩)) :
    syncCommonDirs src ds rpl = (rpl, ⟨0, 0⟩) := by
  induction ds with
  | nil => exact syncCommonDirs_nil src rpl
  | cons m rest ih =>
    have hrest : ∀ n ∈ rest, ∀ ses res, lookup src n = some (FSTree.dir ses) →
        lookup rpl n = some (FSTree.dir res) → sync_folders ses res = (res, ⟨0, 0⟩) :=
      fun n hn => h n (List.mem_cons_of_mem _ hn)
    by_cases hboth : ∃ ses res, lookup src m = some (FSTree.dir ses) ∧
        lookup rpl m = some (FSTree.dir res)
    · obtain ⟨ses, res, hsm, hrm⟩ := hboth
      have hsync : sync_folders ses res = (res, ⟨0, 0⟩) :=
        h m (List.mem_cons_self m rest) ses res hsm hrm
      rw [syncCommonDirs_cons_dir src m rest rpl hsm hrm, hsync]
      simp only [setEntry_self hrm]
      rw [ih hrest]
      rfl
    · rw [syncCommonDirs_cons_other src m rest rpl
        (fun ses res hc => hboth ⟨ses, res, hc⟩)]
      exact ih hrest

theorem sync_folders_noop : ∀ (k : Nat) (src rpl : List (String × FSTree)),
    sizeOf src < k → convergedAt false src rpl = true →
    sync_folders src rpl = (rpl, ⟨0, 0⟩) := by
  intro k
  induction k with
  | zero => intro src rpl h; omega
  | succ k ih =>
    intro src rpl hk hconv
    obtain ⟨h1, h2, h3, h5⟩ := convergedAt_parts hconv
    have hfor := allConvergedAt_forall h5
    have hcd : syncCommonDirs src (common_dirs src rpl) rpl = (rpl, ⟨0, 0⟩) := by
      apply syncCommonDirs_noop
      intro n hn ses res hs hr
      have hszs : sizeOf ses < k := by
        have ha := lookup_sizeOf hs
        have hb : sizeOf (FSTree.dir ses) = 1 + sizeOf ses := by simp
        omega
      exact ih ses res hszs (hfor n hn ses res hs hr)
    rw [sync_folders_eq, h1, h2, h3]
    simp only [List.nil_append]
    have hc : doCopies src [] rpl = (rpl, 0) := rfl
    rw [hc]
    simp only [hcd]
    rfl

/-- One errorless run reaches a fixed point: a second run on the same pair with
no external changes performs zero copies and zero removals and leaves the
replica unchanged. -/
theorem sync_folders_idempotent (src rpl : List (String × FSTree))
    (hwf : wfE src = true) :
    sync_folders src (sync_folders src rpl).1 = ((sync_folders src rpl).1, ⟨0, 0⟩) :=
  sync_folders_noop (sizeOf src + 1) src (sync_folders src rpl).1 (by omega)
    (sync_folders_converges_aux (sizeOf src + 1) src rpl (by omega) hwf)

-- Paths of more than one component

/-- Look a relative path up in a directory tree, component by component. -/
def pathLookup : List String → List (String × FSTree) → Option FSTree
  | [], es => some (FSTree.dir es)
  | [n], es => lookup es n
  | n :: p, es =>
    match lookup es n with
    | some (FSTree.dir ses) => pathLookup p ses
    | _ => none

/-- No proper ancestor of the path is present on both sides with mismatched
kinds (the `common_funny` case that `sync_folders` never descends into). -/
def noMismatchAncestors : List String → List (String × FSTree) →
    List (String × FSTree) → Bool
  | [], _, _ => true
  | [_], _, _ => true
  | n :: p, src, rpl =>
    match lookup src n, lookup rpl n with
    | some (FSTree.dir ses), some (FSTree.dir res) => noMismatchAncestors p ses res
    | some a, some b => !(isDirT a != isDirT b)
    | _, _ => true

theorem pathLookup_file {q : List String} {a : FileData} (hq : q ≠ []) (n : String) :
    pathLookup (n :: q) [] = none ∧
    ∀ es, lookup es n = some (FSTree.file a) → pathLookup (n :: q) es = none := by
  rcases q with _ | ⟨m, q2⟩
  · exact absurd rfl hq
  · refine ⟨by simp [pathLookup, lookup], ?_⟩
    intro es hl
    simp [pathLookup, hl]

theorem sync_folders_removes_path_aux : ∀ (k : Nat) (p : List String)
    (src rpl : List (String × FSTree)), sizeOf src < k → p ≠ [] →
    wfE src = true → p.all (fun c => !ignoredName c) = true →
    pathLookup p src = none →
    noMismatchAncestors p src rpl = true →
    pathLookup p (sync_folders src rpl).1 = none := by
  intro k
  induction k with
  | zero => intro p src rpl h; omega
  | succ k ih =>
    intro p src rpl hk hp hwf hvp hsrc hanc
    have hnd : (names src).Nodup := wfE_nodup hwf
    rcases p with _ | ⟨n, q⟩
    · exact absurd rfl hp
    have hv : ignoredName n = false := by
      have h2 := hvp
      rw [List.all_cons, Bool.and_eq_true] at h2
      simpa using h2.1
    rcases q with _ | ⟨m, q2⟩
    · -- single component: n is absent from src and not ignored, hence removed
      -- (or never present)
      simp only [pathLookup] at hsrc ⊢
      exact lookup_sync_rpl_only hv hsrc
    · -- longer path: walk the first component
      have hq : (m :: q2) ≠ [] := by simp
      have hvq : (m :: q2).all (fun c => !ignoredName c) = true := by
        have h2 := hvp
        rw [List.all_cons, Bool.and_eq_true] at h2
        exact h2.2
      rcases hsn : lookup src n with _ | t
      · -- absent from source entirely: the whole replica entry is removed
        have h1 : lookup (sync_folders src rpl).1 n = none :=
          lookup_sync_rpl_only hv hsn
        simp [pathLookup, h1]
      · cases t with
        | file a =>
          -- source has a file here: the replica entry is a file afterwards
          -- unless the ancestor was a type mismatch (excluded)
          rcases hrn : lookup rpl n with _ | u
          · have h1 := @lookup_sync_src_only src rpl n _ hv hsn hrn
            simp [pathLookup, h1]
          · cases u with
            | file b =>
              cases hsh : shallowEq a b with
              | true =>
                have h1 := lookup_sync_same_file hsn hrn hsh
                simp [pathLookup, h1]
              | false =>
                have h1 := lookup_sync_diff_file hv hsn hrn hsh
                simp [pathLookup, h1]
            | dir res =>
              simp only [noMismatchAncestors, hsn, hrn] at hanc
              simp [isDirT] at hanc
        | dir ses =>
          have hps : pathLookup (m :: q2) ses = none := by
            simpa [pathLookup, hsn] using hsrc
          rcases hrn : lookup rpl n with _ | u
          · -- copied fresh from source: the missing sub-path stays missing
            have h1 := @lookup_sync_src_only src rpl n _ hv hsn hrn
            simp [pathLookup, h1, hps]
          · cases u with
            | file b =>
              simp only [noMismatchAncestors, hsn, hrn] at hanc
              simp [isDirT] at hanc
            | dir res =>
              have h1 := lookup_sync_common_dir hnd hv hsn hrn
              have hanc2 : noMismatchAncestors (m :: q2) ses res = true := by
                simpa [noMismatchAncestors, hsn, hrn] using hanc
              have hszs : sizeOf ses < k := by
                have ha := lookup_sizeOf hsn
                have hb : sizeOf (FSTree.dir ses) = 1 + sizeOf ses := by simp
                omega
              have h2 := ih (m :: q2) ses res hszs hq (wfE_sub hwf hsn) hvq
                hps hanc2
              simp [pathLookup, h1, h2]

-- Fallible run: per-item filesystem operations can raise

/-- A single per-item filesystem operation of the run, identified by kind and
by the item's path relative to the two roots. -/
inductive FsOp where
  | copyFile (path : List String) : FsOp
  | copyTree (path : List String) : FsOp
  | removeFile (path : List String) : FsOp
  | removeTree (path : List String) : FsOp
deriving DecidableEq, Repr

/-- Copy loop with a failure oracle `fails` (permission denied, vanished path,
disk full). The Python loop has no try/except, so the first raising
`shutil.copytree` / `shutil.copy2` propagates: the `Except.error` carries the
failing operation and the remaining items are not processed. -/
def doCopiesE (fails : FsOp → Bool) (pre : List String)
    (src : List (String × FSTree)) :
    List String → List (String × FSTree) →
      Except FsOp (List (String × FSTree) × Nat)
  | [], rpl => .ok (rpl, 0)
  | n :: rest, rpl =>
    match lookup src n with
    | some (FSTree.dir es) =>
      if fails (.copyTree (pre ++ [n])) then .error (.copyTree (pre ++ [n]))
      else
        match doCopiesE fails pre src rest (setEntry rpl n (FSTree.dir es)) with
        | .ok r => .ok (r.1, r.2 + 1)
        | .error e => .error e
    | some (FSTree.file d) =>
      if fails (.copyFile (pre ++ [n])) then .error (.copyFile (pre ++ [n]))
      else
        match doCopiesE fails pre src rest (setEntry rpl n (FSTree.file d)) with
        | .ok r => .ok (r.1, r.2 + 1)
        | .error e => .error e
    | none => doCopiesE fails pre src rest rpl

/-- Removal loop with a failure oracle: the first raising `shutil.rmtree` /
`os.remove` propagates. -/
def doRemovalsE (fails : FsOp → Bool) (pre : List String) :
    List String → List (String × FSTree) →
      Except FsOp (List (String × FSTree) × Nat)
  | [], rpl => .ok (rpl, 0)
  | n :: rest, rpl =>
    match lookup rpl n with
    | some (FSTree.dir _) =>
      if fails (.removeTree (pre ++ [n])) then .error (.removeTree (pre ++ [n]))
      else
        match doRemovalsE fails pre rest (removeEntry rpl n) with
        | .ok r => .ok (r.1, r.2 + 1)
        | .error e => .error e
    | _ =>
      if fails (.removeFile (pre ++ [n])) then .error (.removeFile (pre ++ [n]))
      else
        match doRemovalsE fails pre rest (removeEntry rpl n) with
        | .ok r => .ok (r.1, r.2 + 1)
        | .error e => .error e

mutual

/-- Model of `sync_folders` over a filesystem whose per-item operations can
fail. `sync_folders` wraps no operation in try/except and builds no outcome
record, so the first failing operation propagates out of the whole run and
every remaining item of the run is left unprocessed. -/
def sync_foldersE (fails : FsOp → Bool) (pre : List String)
    (src rpl : List (String × FSTree)) :
    Except FsOp (List (String × FSTree) × SyncOutcome) :=
  match doCopiesE fails pre src (left_only src rpl ++ diff_files src rpl) rpl with
  | .error e => .error e
  | .ok c =>
    match syncCommonDirsE fails pre src (common_dirs src rpl) c.1 with
    | .error e => .error e
    | .ok r =>
      match doRemovalsE fails pre (right_only src rpl) r.1 with
      | .error e => .error e
      | .ok d => .ok (d.1, ⟨c.2 + r.2.copies, r.2.removals + d.2⟩)
termination_by (sizeOf src, 1, 0)

/-- Fallible recursion of `sync_foldersE` into the common subdirectories. -/
def syncCommonDirsE (fails : FsOp → Bool) (pre : List String)
    (src : List (String × FSTree)) (ds : List String)
    (rpl : List (String × FSTree)) :
    Except FsOp (List (String × FSTree) × SyncOutcome) :=
  match ds with
  | [] => .ok (rpl, ⟨0, 0⟩)
  | n :: rest =>
    match hs : lookup src n, lookup rpl n with
    | some (FSTree.dir ses), some (FSTree.dir res) =>
      have hlt : sizeOf ses < sizeOf src := by
        have h1 := lookup_sizeOf hs
        have h2 : sizeOf (FSTree.dir ses) = 1 + sizeOf ses := by simp
        omega
      match sync_foldersE fails (pre ++ [n]) ses res with
      | .error e => .error e
      | .ok r1 =>
        match syncCommonDirsE fails pre src rest
            (setEntry rpl n (FSTree.dir r1.1)) with
        | .error e => .error e
        | .ok r2 =>
          .ok (r2.1, ⟨r1.2.copies + r2.2.copies, r1.2.removals + r2.2.removals⟩)
    | _, _ => syncCommonDirsE fails pre src rest rpl
termination_by (sizeOf src, 0, ds.length)

end

theorem syncCommonDirsE_nil (fails : FsOp → Bool) (pre : List String)
    (src rpl : List (String × FSTree)) :
    syncCommonDirsE fails pre src [] rpl = .ok (rpl, ⟨0, 0⟩) := by
  simp [syncCommonDirsE]

theorem syncCommonDirsE_cons_dir (fails : FsOp → Bool) (pre : List String)
    (src : List (String × FSTree)) (m : String) (rest : List String)
    (rpl : List (String × FSTree)) {ses res : List (String × FSTree)}
    (hsm : lookup src m = some (FSTree.dir ses))
    (hrm : lookup rpl m = some (FSTree.dir res)) :
    syncCommonDirsE fails pre src (m :: rest) rpl =
      (match sync_foldersE fails (pre ++ [m]) ses res with
       | .error e => .error e
       | .ok r1 =>
         match syncCommonDirsE fails pre src rest
             (setEntry rpl m (FSTree.dir r1.1)) with
         | .error e => .error e
         | .ok r2 =>
           .ok (r2.1, ⟨r1.2.copies + r2.2.copies,
             r1.2.removals + r2.2.removals⟩)) := by
  rw [syncCommonDirsE]
  split
  · next ses2 res2 hs2 hr2 =>
      rw [hsm] at hs2
      rw [hrm] at hr2
      cases hs2
      cases hr2
      rfl
  · next hnot =>
      exact (hnot ses res hsm hrm).elim

theorem syncCommonDirsE_cons_other (fails : FsOp → Bool) (pre : List String)
    (src : List (String × FSTree)) (m : String) (rest : List String)
    (rpl : List (String × FSTree))
    (h : ∀ ses res, ¬(lookup src m = some (FSTree.dir ses) ∧
      lookup rpl m = some (FSTree.dir res))) :
    syncCommonDirsE fails pre src (m :: rest) rpl =
      syncCommonDirsE fails pre src rest rpl := by
  rw [syncCommonDirsE]
  split
  · next ses2 res2 hs2 hr2 =>
      exact absurd ⟨hs2, hr2⟩ (h ses2 res2)
  · rfl

-- With a failure-free filesystem the fallible run coincides with the pure one

theorem doCopiesE_no_fail (pre : List String) (src : List (String × FSTree))
    (ns : List String) (rpl : List (String × FSTree)) :
    doCopiesE (fun _ => false) pre src ns rpl = .ok (doCopies src ns rpl) := by
  induction ns generalizing rpl with
  | nil => rfl
  | cons n rest ih =>
    rcases hm : lookup src n with _ | t
    · simp [doCopiesE, doCopies, hm, ih]
    · cases t <;> simp [doCopiesE, doCopies, hm, ih]

theorem doRemovalsE_no_fail (pre : List String) (ns : List String)
    (rpl : List (String × FSTree)) :
    doRemovalsE (fun _ => false) pre ns rpl = .ok (doRemovals ns rpl) := by
  induction ns generalizing rpl with
  | nil => rfl
  | cons n rest ih =>
    rcases hm : lookup rpl n with _ | t
    · simp [doRemovalsE, doRemovals, hm, ih]
    · cases t <;> simp [doRemovalsE, doRemovals, hm, ih]

theorem syncCommonDirsE_no_fail (pre : List String) (src : List (String × FSTree))
    (ds : List String) (rpl : List (String × FSTree))
    (h : ∀ n ∈ ds, ∀ ses, lookup src n = some (FSTree.dir ses) →
      ∀ res pre2, sync_foldersE (fun _ => false) pre2 ses res =
        .ok (sync_folders ses res)) :
    syncCommonDirsE (fun _ => false) pre src ds rpl =
      .ok (syncCommonDirs src ds rpl) := by
  induction ds generalizing rpl with
  | nil => rw [syncCommonDirsE_nil, syncCommonDirs_nil]
  | cons m rest ih =>
    have hrest : ∀ n ∈ rest, ∀ ses, lookup src n = some (FSTree.dir ses) →
        ∀ res pre2, sync_foldersE (fun _ => false) pre2 ses res =
          .ok (sync_folders ses res) :=
      fun n hn => h n (List.mem_cons_of_mem _ hn)
    by_cases hboth : ∃ ses res, lookup src m = some (FSTree.dir ses) ∧
        lookup rpl m = some (FSTree.dir res)
    · obtain ⟨ses, res, hsm, hrm⟩ := hboth
      rw [syncCommonDirsE_cons_dir (fun _ => false) pre src m rest rpl hsm hrm,
        syncCommonDirs_cons_dir src m rest rpl hsm hrm,
        h m (List.mem_cons_self m rest) ses hsm res (pre ++ [m])]
      simp only [ih _ hrest]
    · rw [syncCommonDirsE_cons_other (fun _ => false) pre src m rest rpl
          (fun ses res hc => hboth ⟨ses, res, hc⟩),
        syncCommonDirs_cons_other src m rest rpl
          (fun ses res hc => hboth ⟨ses, res, hc⟩)]
      exact ih _ hrest

/-- When no per-item operation fails, the fallible run returns `ok` with
exactly the result of the pure run. -/
theorem sync_foldersE_no_fail : ∀ (k : Nat) (pre : List String)
    (src rpl : List (String × FSTree)), sizeOf src < k →
    sync_foldersE (fun _ => false) pre src rpl = .ok (sync_folders src rpl) := by
  intro k
  induction k with
  | zero => intro pre src rpl h; omega
  | succ k ih =>
    intro pre src rpl hk
    have hcd : ∀ n, ∀ ses, lookup src n = some (FSTree.dir ses) →
        ∀ res pre2, sync_foldersE (fun _ => false) pre2 ses res =
          .ok (sync_folders ses res) := by
      intro n ses hsn res pre2
      have hszs : sizeOf ses < k := by
        have ha := lookup_sizeOf hsn
        have hb : sizeOf (FSTree.dir ses) = 1 + sizeOf ses := by simp
        omega
      exact ih pre2 ses res hszs
    rw [sync_foldersE,
      doCopiesE_no_fail pre src (left_only src rpl ++ diff_files src rpl) rpl]
    simp only []
    rw [syncCommonDirsE_no_fail pre src (common_dirs src rpl) _
      (fun n _ ses hsn => hcd n ses hsn)]
    simp only []
    rw [doRemovalsE_no_fail pre (right_only src rpl) _]
    simp only []
    rw [sync_folders_eq]

-- A single failing per-item operation aborts the whole run

theorem sync_foldersE_first_copy_fails (fails : FsOp → Bool) (pre : List String)
    (src rpl : List (String × FSTree)) (n : String) (rest : List String)
    {d : FileData}
    (hcl : left_only src rpl ++ diff_files src rpl = n :: rest)
    (hsn : lookup src n = some (FSTree.file d))
    (hf : fails (FsOp.copyFile (pre ++ [n])) = true) :
    sync_foldersE fails pre src rpl = .error (FsOp.copyFile (pre ++ [n])) := by
  have h1 : doCopiesE fails pre src (left_only src rpl ++ diff_files src rpl) rpl
      = .error (FsOp.copyFile (pre ++ [n])) := by
    rw [hcl]
    simp [doCopiesE, hsn, hf]
  rw [sync_foldersE, h1]

-- Scheduler model: schedule.every(interval).seconds.do(job) plus the loop
-- while True: schedule.run_pending(); time.sleep(1)

/-- Tick-by-tick simulation of the `schedule` library driven by the polling
loop. At registration (`schedule.every(interval).seconds.do(...)`) the
library sets the job's `next_run` to now + interval; `run_pending` runs the
job iff `next_run ≤ now` and then re-arms `next_run := now + interval`.
`schedSim i k t nr` returns the tick times of the runs performed during the
next `k` one-second ticks, starting at tick `t` with the job armed for `nr`. -/
def schedSim (i : Nat) : Nat → Nat → Nat → List Nat
  | 0, _, _ => []
  | Nat.succ k, t, nr =>
    if nr ≤ t then t :: schedSim i k (t + 1) (t + i)
    else schedSim i k (t + 1) nr

/-- Run times of the scheduling loop of `main` over its first `k` ticks: the
job is registered at tick 0, so its first `next_run` is `interval`; `main`
itself never calls `sync_folders` before the loop. -/
def runTimes (i k : Nat) : List Nat := schedSim i k 0 i

theorem schedSim_mem (i : Nat) (hi : 1 ≤ i) : ∀ (k t nr x : Nat), t ≤ nr →
    (x ∈ schedSim i k t nr ↔ (∃ j, x = nr + j * i) ∧ x < t + k) := by
  intro k
  induction k with
  | zero =>
    intro t nr x ht
    simp only [schedSim, List.not_mem_nil, false_iff, not_and]
    rintro ⟨j, hj⟩
    generalize hA : j * i = A at hj
    omega
  | succ k ih =>
    intro t nr x ht
    simp only [schedSim]
    by_cases h : nr ≤ t
    · have hnr : nr = t := Nat.le_antisymm h ht
      subst hnr
      rw [if_pos h]
      simp only [List.mem_cons]
      rw [ih (nr + 1) (nr + i) x (by omega)]
      constructor
      · rintro (rfl | ⟨⟨j, hx⟩, hlt⟩)
        · exact ⟨⟨0, by simp⟩, by omega⟩
        · refine ⟨⟨j + 1, ?_⟩, by omega⟩
          have hsm : (j + 1) * i = j * i + i := Nat.succ_mul j i
          generalize hA : j * i = A at hx hsm
          generalize hB : (j + 1) * i = B at hsm ⊢
          omega
      · rintro ⟨⟨j, hx⟩, hlt⟩
        cases j with
        | zero =>
          left
          simpa using hx
        | succ j2 =>
          right
          have hsm : (j2 + 1) * i = j2 * i + i := Nat.succ_mul j2 i
          refine ⟨⟨j2, ?_⟩, ?_⟩
          · generalize hA : j2 * i = A at hsm ⊢
            generalize hB : (j2 + 1) * i = B at hsm hx
            omega
          · omega
    · rw [if_neg h]
      rw [ih (t + 1) nr x (by omega)]
      constructor
      · rintro ⟨hj, hl⟩
        exact ⟨hj, by omega⟩
      · rintro ⟨hj, hl⟩
        refine ⟨hj, ?_⟩
        obtain ⟨j, hx⟩ := hj
        generalize hA : j * i = A at hx
        omega

/-- The scheduling loop performs its runs exactly at the strictly positive
multiples of the interval: nothing runs before one full interval has elapsed,
and the job then fires every interval. -/
theorem runTimes_mem (i k x : Nat) (hi : 1 ≤ i) :
    x ∈ runTimes i k ↔ (∃ j, x = i + j * i) ∧ x < k := by
  rw [runTimes, schedSim_mem i hi k 0 i x (by omega)]
  simp

-- Orchestrator model: startup validation and exit behavior of main

/-- Result of one `main(source, replica, interval, log_path)` process observed
for `ticks` seconds: whether a fatal validation error was logged, the exit
status when the process exited during startup (`none` means the scheduling
loop was entered), and the tick times of the synchronization runs performed.

The source registers the job first, then checks `os.path.exists` for both
roots (raising `FileNotFoundError`, caught by `except Exception`, which logs
and calls `exit()`), then compares the two path strings with `==` (logging and
calling `exit()` when equal). A bare Python `exit()` raises
`SystemExit(None)`, which terminates the process with exit status 0. -/
structure MainSim where
  errorLogged : Bool
  exitCode : Option Nat
  runs : List Nat
deriving DecidableEq, Repr

def mainSim (sourceExists replicaExists : Bool) (source replica : String)
    (interval ticks : Nat) : MainSim :=
  if sourceExists = false then ⟨true, some 0, []⟩
  else if replicaExists = false then ⟨true, some 0, []⟩
  else if source = replica then ⟨true, some 0, []⟩
  else ⟨false, none, runTimes interval ticks⟩

/-- POSIX-style path normalization restricted to dropping empty and `.`
components: distinct argument strings can resolve to the same filesystem
location. `main` never resolves its arguments; it compares the raw strings. -/
def resolvePath (s : String) : List (List Char) :=
  (s.toList.splitOn '/').filter (fun c => c ≠ [] && c ≠ ['.'])

/-- Whether two path strings denote the same filesystem location after
normalization. -/
def samePath (a b : String) : Bool := resolvePath a == resolvePath b

-- Loop with a callback that can raise

/-- Loop simulation when the scheduled callback itself can raise: the loop
body `schedule.run_pending()` invokes the job with no try/except anywhere in
`main`, so a raising run propagates and the process dies; nothing re-arms.
`cbFails j` tells whether the j-th run raises. -/
def schedSimE (i : Nat) (cbFails : Nat → Bool) :
    Nat → Nat → Nat → Nat → Except String (List Nat)
  | 0, _, _, _ => .ok []
  | Nat.succ k, t, nr, j =>
    if nr ≤ t then
      if cbFails j then .error "sync_folders raised"
      else
        match schedSimE i cbFails k (t + 1) (t + i) (j + 1) with
        | .ok l => .ok (t :: l)
        | .error e => .error e
    else schedSimE i cbFails k (t + 1) nr j

/-- Loop of `main` over `k` ticks with a possibly-raising callback. -/
def runTimesE (i : Nat) (cbFails : Nat → Bool) (k : Nat) :
    Except String (List Nat) :=
  schedSimE i cbFails k 0 i 0

theorem schedSimE_first_raise (i : Nat) (cbFails : Nat → Bool) :
    ∀ (k t nr : Nat), t ≤ nr → nr < t + k → cbFails 0 = true →
    schedSimE i cbFails k t nr 0 = .error "sync_folders raised" := by
  intro k
  induction k with
  | zero => intro t nr ht hlt hcb; omega
  | succ k ih =>
    intro t nr ht hlt hcb
    by_cases h : nr ≤ t
    · simp [schedSimE, h, hcb]
    · simp only [schedSimE, if_neg h]
      exact ih (t + 1) nr (by omega) (by omega) hcb

-- Claims

/-- Claim C1, counterexample: an errorless `sync_folders` run on
source `x = file`, replica `x = directory` (a type mismatch) leaves the
replica untouched, and the fresh comparison still reports `x` as a type
mismatch at top level — full convergence as claimed fails. -/
theorem claim_C1_counterexample :
    sync_foldersE (fun _ => false) [] [("x", FSTree.file ⟨1, 1, 1⟩)]
        [("x", FSTree.dir [])] =
      .ok (sync_folders [("x", FSTree.file ⟨1, 1, 1⟩)] [("x", FSTree.dir [])]) ∧
    common_funny [("x", FSTree.file ⟨1, 1, 1⟩)]
      (sync_folders [("x", FSTree.file ⟨1, 1, 1⟩)] [("x", FSTree.dir [])]).1 =
      ["x"] ∧
    convergedAt true [("x", FSTree.file ⟨1, 1, 1⟩)]
      (sync_folders [("x", FSTree.file ⟨1, 1, 1⟩)] [("x", FSTree.dir [])]).1 =
      false := by
  have hA : left_only [("x", FSTree.file ⟨1, 1, 1⟩)] [("x", FSTree.dir [])] ++
      diff_files [("x", FSTree.file ⟨1, 1, 1⟩)] [("x", FSTree.dir [])] = [] := by
    decide
  have hB : common_dirs [("x", FSTree.file ⟨1, 1, 1⟩)] [("x", FSTree.dir [])] = [] := by
    decide
  have hC : right_only [("x", FSTree.file ⟨1, 1, 1⟩)] [("x", FSTree.dir [])] = [] := by
    decide
  have h1 : (sync_folders [("x", FSTree.file ⟨1, 1, 1⟩)]
      [("x", FSTree.dir [])]).1 = [("x", FSTree.dir [])] := by
    rw [sync_folders_eq, hA, hB, hC]
    simp [doCopies, doRemovals, syncCommonDirs_nil]
  have h2 : common_funny [("x", FSTree.file ⟨1, 1, 1⟩)] [("x", FSTree.dir [])] =
      ["x"] := by decide
  refine ⟨sync_foldersE_no_fail
    (sizeOf [("x", FSTree.file (⟨1, 1, 1⟩ : FileData))] + 1) [] _ _ (by omega),
    ?_, ?_⟩
  · rw [h1]
    exact h2
  · rw [h1]
    rw [convergedAt]
    simp [h2]

/-- Claim C1 (amended): after one errorless `sync_folders(source, replica)`
run, a fresh comparison of the same roots reports no source-only entries, no
replica-only entries and no differing files at every level reachable through
common directories — but type mismatches (`common_funny`) can persist, since
`sync_folders` never touches them; full convergence including `typeMismatch`
does not hold. -/
theorem claim_C1 (src rpl : List (String × FSTree)) (hwf : wfE src = true) :
    convergedAt false src (sync_folders src rpl).1 = true :=
  sync_folders_converges_aux (sizeOf src + 1) src rpl (by omega) hwf

/-- Claim C1, witness at a concrete pair of trees. -/
theorem claim_C1_witness :
    wfE [("a", FSTree.file ⟨1, 2, 3⟩), ("d", FSTree.dir [("b", FSTree.file ⟨4, 5, 6⟩)])] = true ∧
    convergedAt false
      [("a", FSTree.file ⟨1, 2, 3⟩), ("d", FSTree.dir [("b", FSTree.file ⟨4, 5, 6⟩)])]
      (sync_folders
        [("a", FSTree.file ⟨1, 2, 3⟩), ("d", FSTree.dir [("b", FSTree.file ⟨4, 5, 6⟩)])]
        [("stale", FSTree.file ⟨7, 8, 9⟩)]).1 = true :=
  ⟨by simp [wfE, wfT, lookup],
    claim_C1 _ _ (by simp [wfE, wfT, lookup])⟩

/-- Claim C2, counterexample: one failing `shutil.copy2` (here on item `a`)
escapes `sync_folders` as an error instead of being caught and recorded, and
the remaining item `b` of the run is never processed — there is no
`SyncOutcome` aggregation in the code. -/
theorem claim_C2_counterexample :
    sync_foldersE (fun op => decide (op = FsOp.copyFile ["a"])) []
      [("a", FSTree.file ⟨1, 1, 1⟩), ("b", FSTree.file ⟨2, 2, 2⟩)] [] =
      .error (FsOp.copyFile ["a"]) := by
  apply sync_foldersE_first_copy_fails (d := ⟨1, 1, 1⟩) _ _ _ _ "a" ["b"]
  · decide
  · simp [lookup]
  · decide

/-- Claim C2 (amended): `sync_folders` wraps no per-item operation in
try/except and builds no outcome record: a single failing copy raises out of
the whole run, which aborts with that error and leaves every remaining item
unprocessed. -/
theorem claim_C2 (fails : FsOp → Bool) (pre : List String)
    (src rpl : List (String × FSTree)) (n : String) (rest : List String)
    {d : FileData}
    (hcl : left_only src rpl ++ diff_files src rpl = n :: rest)
    (hsn : lookup src n = some (FSTree.file d))
    (hf : fails (FsOp.copyFile (pre ++ [n])) = true) :
    sync_foldersE fails pre src rpl = .error (FsOp.copyFile (pre ++ [n])) :=
  sync_foldersE_first_copy_fails fails pre src rpl n rest hcl hsn hf

/-- Claim C2, witness at a concrete tree and failure oracle. -/
theorem claim_C2_witness :
    (left_only [("f", FSTree.file ⟨3, 3, 3⟩)] [] ++
      diff_files [("f", FSTree.file ⟨3, 3, 3⟩)] [] = ["f"]) ∧
    sync_foldersE (fun op => decide (op = FsOp.copyFile ["f"])) []
      [("f", FSTree.file ⟨3, 3, 3⟩)] [] = .error (FsOp.copyFile ["f"]) := by
  refine ⟨by decide, ?_⟩
  have h := claim_C2 (fun op => decide (op = FsOp.copyFile ["f"])) []
    [("f", FSTree.file ⟨3, 3, 3⟩)] [] "f" [] (d := ⟨3, 3, 3⟩)
    (by decide) (by simp [lookup]) (by decide)
  simpa using h

/-- Claim C3 (code bug evidence): with the default interval of 3600 s and
valid distinct roots, the scheduling loop performs no synchronization at all
during the first 3600 ticks (the claimed immediate first run never happens,
although `main` logs "Starting initial synchronization"); the first run only
fires at tick 3600. -/
theorem claim_C3 : runTimes 3600 3600 = [] ∧ 3600 ∈ runTimes 3600 3601 := by
  constructor
  · apply List.eq_nil_iff_forall_not_mem.mpr
    intro x hx
    rw [runTimes_mem 3600 3600 x (by omega)] at hx
    obtain ⟨⟨j, hj⟩, hlt⟩ := hx
    generalize hA : j * 3600 = A at hj
    omega
  · rw [runTimes_mem 3600 3601 3600 (by omega)]
    exact ⟨⟨0, by simp⟩, by omega⟩

/-- Claim C4, counterexample: when the source path does not exist, `main`
logs the fatal error and never enters the scheduling loop, but the process
exits with status 0 (Python's bare `exit()` raises `SystemExit(None)`), not
with the claimed non-zero status. -/
theorem claim_C4_counterexample :
    mainSim false true "src" "rpl" 3600 100 = ⟨true, some 0, []⟩ := by
  simp [mainSim]

/-- Claim C4 (amended): whenever startup validation fails (missing source,
missing replica, or identical path strings), `main` reports the error, never
enters the scheduling loop and performs no synchronization run — but it exits
with status 0, not a non-zero status. -/
theorem claim_C4 (se re : Bool) (s r : String) (i k : Nat)
    (h : se = false ∨ re = false ∨ s = r) :
    mainSim se re s r i k = ⟨true, some 0, []⟩ := by
  rcases h with h | h | h
  · simp [mainSim, h]
  · cases se <;> simp [mainSim, h]
  · cases se <;> cases re <;> simp [mainSim, h]

/-- Claim C4, witness at a concrete missing replica. -/
theorem claim_C4_witness :
    (true = false ∨ false = false ∨ ("a" : String) = "b") ∧
    mainSim true false "a" "b" 5 7 = ⟨true, some 0, []⟩ :=
  ⟨Or.inr (Or.inl rfl), claim_C4 true false "a" "b" 5 7 (Or.inr (Or.inl rfl))⟩

/-- Claim C5, counterexample: the arguments "a" and "a/." resolve to the same
filesystem path but differ as raw strings, so `main`'s `source == replica`
string check does not reject them: validation passes and the scheduling loop
is entered, contradicting the claim that every same-resolving pair is
rejected as a fatal startup error. -/
theorem claim_C5_counterexample :
    samePath "a" "a/." = true ∧ ("a" : String) ≠ "a/." ∧
    mainSim true true "a" "a/." 5 0 = ⟨false, none, []⟩ := by
  have hne : ("a" : String) ≠ "a/." := by decide
  exact ⟨by decide, hne, by simp [mainSim, hne, runTimes, schedSim]⟩

/-- Claim C5 (amended): only argument pairs that are equal as raw strings are
rejected at startup (error logged, loop never entered, zero synchronization
runs and hence zero filesystem mutations, exit status 0); pairs that merely
resolve to the same path are accepted. -/
theorem claim_C5 (se re : Bool) (s r : String) (i k : Nat) (h : s = r) :
    mainSim se re s r i k = ⟨true, some 0, []⟩ := by
  cases se <;> cases re <;> simp [mainSim, h]

/-- Claim C5, witness at a concrete string-equal pair. -/
theorem claim_C5_witness :
    ("p" : String) = "p" ∧ mainSim true true "p" "p" 9 9 = ⟨true, some 0, []⟩ :=
  ⟨rfl, claim_C5 true true "p" "p" 9 9 rfl⟩

/-- Claim C6, counterexample: source `x` is a file and replica `x` is a
directory; after `sync_folders` the replica entry is still the old directory,
so its kind does not match the source's kind — the claimed delete-then-copy
resolution never happens. -/
theorem claim_C6_counterexample :
    lookup (sync_folders [("x", FSTree.file ⟨1, 1, 1⟩)]
        [("x", FSTree.dir [("s", FSTree.file ⟨9, 9, 9⟩)])]).1 "x" =
      some (FSTree.dir [("s", FSTree.file ⟨9, 9, 9⟩)]) ∧
    isDirT (FSTree.dir [("s", FSTree.file ⟨9, 9, 9⟩)]) ≠
      isDirT (FSTree.file ⟨1, 1, 1⟩) := by
  refine ⟨?_, by simp [isDirT]⟩
  exact lookup_sync_funny (a := FSTree.file ⟨1, 1, 1⟩)
    (b := FSTree.dir [("s", FSTree.file ⟨9, 9, 9⟩)])
    (by simp [lookup]) (by simp [lookup]) (by simp [isDirT])

/-- Claim C6 (amended): a name present on both sides with mismatched kinds
(`common_funny`) is left completely untouched by `sync_folders`: the replica
entry keeps its pre-run kind and content; it is neither removed nor
overwritten, so after the run its kind still differs from the source's. -/
theorem claim_C6 {src rpl : List (String × FSTree)} {n : String}
    {a b : FSTree} (hs : lookup src n = some a) (hr : lookup rpl n = some b)
    (hk : isDirT a ≠ isDirT b) :
    lookup (sync_folders src rpl).1 n = some b :=
  lookup_sync_funny hs hr hk

/-- Claim C6, witness at a concrete directory-versus-file mismatch. -/
theorem claim_C6_witness :
    lookup [("z", FSTree.dir [])] "z" = some (FSTree.dir []) ∧
    lookup [("z", FSTree.file ⟨2, 2, 2⟩)] "z" = some (FSTree.file ⟨2, 2, 2⟩) ∧
    lookup (sync_folders [("z", FSTree.dir [])]
        [("z", FSTree.file ⟨2, 2, 2⟩)]).1 "z" = some (FSTree.file ⟨2, 2, 2⟩) := by
  refine ⟨by simp [lookup], by simp [lookup], ?_⟩
  exact claim_C6 (a := FSTree.dir []) (b := FSTree.file ⟨2, 2, 2⟩)
    (by simp [lookup]) (by simp [lookup]) (by simp [isDirT])

/-- Claim C7, counterexample: the path `x/y` exists only under the replica
(source `x` is a file), yet it survives an errorless run, because
`sync_folders` never descends into a type-mismatch entry — replica-only
entries below a `common_funny` name are not deleted. -/
theorem claim_C7_counterexample :
    pathLookup ["x", "y"] [("x", FSTree.file ⟨1, 1, 1⟩)] = none ∧
    pathLookup ["x", "y"] [("x", FSTree.dir [("y", FSTree.file ⟨2, 2, 2⟩)])] =
      some (FSTree.file ⟨2, 2, 2⟩) ∧
    pathLookup ["x", "y"] (sync_folders [("x", FSTree.file ⟨1, 1, 1⟩)]
        [("x", FSTree.dir [("y", FSTree.file ⟨2, 2, 2⟩)])]).1 =
      some (FSTree.file ⟨2, 2, 2⟩) := by
  have hA : left_only [("x", FSTree.file ⟨1, 1, 1⟩)]
        [("x", FSTree.dir [("y", FSTree.file ⟨2, 2, 2⟩)])] ++
      diff_files [("x", FSTree.file ⟨1, 1, 1⟩)]
        [("x", FSTree.dir [("y", FSTree.file ⟨2, 2, 2⟩)])] = [] := by decide
  have hB : common_dirs [("x", FSTree.file ⟨1, 1, 1⟩)]
      [("x", FSTree.dir [("y", FSTree.file ⟨2, 2, 2⟩)])] = [] := by decide
  have hC : right_only [("x", FSTree.file ⟨1, 1, 1⟩)]
      [("x", FSTree.dir [("y", FSTree.file ⟨2, 2, 2⟩)])] = [] := by decide
  have h1 : (sync_folders [("x", FSTree.file ⟨1, 1, 1⟩)]
      [("x", FSTree.dir [("y", FSTree.file ⟨2, 2, 2⟩)])]).1 =
      [("x", FSTree.dir [("y", FSTree.file ⟨2, 2, 2⟩)])] := by
    rw [sync_folders_eq, hA, hB, hC]
    simp [doCopies, doRemovals, syncCommonDirs_nil]
  refine ⟨by simp [pathLookup, lookup], by simp [pathLookup, lookup], ?_⟩
  rw [h1]
  simp [pathLookup, lookup]

/-- Claim C7 (amended): an entry present only under the replica is absent
after an errorless run, provided no proper ancestor of its path is a
type-mismatch (`common_funny`) name and no component of its path is one of
the names `dircmp` filters out (hide + `DEFAULT_IGNORES`: `.git`,
`__pycache__`, `CVS`, ...) — entries below a type mismatch are never visited,
and filtered names never appear in `right_only` or `common_dirs`, so both
kinds of entries survive. -/
theorem claim_C7 (p : List String) (src rpl : List (String × FSTree))
    (hp : p ≠ []) (hwf : wfE src = true)
    (hvis : p.all (fun c => !ignoredName c) = true)
    (hsrc : pathLookup p src = none)
    (_hrpl : (pathLookup p rpl).isSome = true)
    (hanc : noMismatchAncestors p src rpl = true) :
    pathLookup p (sync_folders src rpl).1 = none :=
  sync_folders_removes_path_aux (sizeOf src + 1) p src rpl (by omega) hp hwf
    hvis hsrc hanc

/-- Claim C7, witness at a concrete stale top-level replica file. -/
theorem claim_C7_witness :
    (["stale"] ≠ ([] : List String)) ∧
    wfE [("keep", FSTree.file ⟨1, 1, 1⟩)] = true ∧
    (["stale"].all (fun c => !ignoredName c) = true) ∧
    pathLookup ["stale"] [("keep", FSTree.file ⟨1, 1, 1⟩)] = none ∧
    (pathLookup ["stale"] [("stale", FSTree.file ⟨7, 7, 7⟩)]).isSome = true ∧
    noMismatchAncestors ["stale"] [("keep", FSTree.file ⟨1, 1, 1⟩)]
      [("stale", FSTree.file ⟨7, 7, 7⟩)] = true ∧
    pathLookup ["stale"] (sync_folders [("keep", FSTree.file ⟨1, 1, 1⟩)]
      [("stale", FSTree.file ⟨7, 7, 7⟩)]).1 = none := by
  refine ⟨by simp, by simp [wfE, wfT, lookup], by decide,
    by simp [pathLookup, lookup], by simp [pathLookup, lookup],
    by simp [noMismatchAncestors], ?_⟩
  exact claim_C7 ["stale"] _ _ (by simp) (by simp [wfE, wfT, lookup])
    (by decide) (by simp [pathLookup, lookup]) (by simp [pathLookup, lookup])
    (by simp [noMismatchAncestors])

/-- Claim C8: running `sync_folders` twice in a row on the same pair with no
external changes makes the second run perform zero copy operations and zero
removal operations (and leave the replica unchanged). -/
theorem claim_C8 (src rpl : List (String × FSTree)) (hwf : wfE src = true) :
    sync_folders src (sync_folders src rpl).1 =
      ((sync_folders src rpl).1, ⟨0, 0⟩) :=
  sync_folders_idempotent src rpl hwf

/-- Claim C8, witness at a concrete pair with one copy and one removal in the
first run. -/
theorem claim_C8_witness :
    wfE [("a", FSTree.file ⟨1, 2, 3⟩)] = true ∧
    sync_folders [("a", FSTree.file ⟨1, 2, 3⟩)]
        (sync_folders [("a", FSTree.file ⟨1, 2, 3⟩)]
          [("old", FSTree.file ⟨9, 9, 9⟩)]).1 =
      ((sync_folders [("a", FSTree.file ⟨1, 2, 3⟩)]
        [("old", FSTree.file ⟨9, 9, 9⟩)]).1, ⟨0, 0⟩) :=
  ⟨by simp [wfE, wfT, lookup], claim_C8 _ _ (by simp [wfE, wfT, lookup])⟩

/-- Claim C9, counterexample: with a callback that raises on its first run,
the loop dies with the propagated error after one attempt (interval 1,
observed 3 ticks) instead of logging it and re-arming; with a callback that
returns normally the same loop performs runs at ticks 1 and 2. -/
theorem claim_C9_counterexample :
    runTimesE 1 (fun _ => true) 3 = .error "sync_folders raised" ∧
    runTimesE 1 (fun _ => false) 3 = .ok [1, 2] :=
  ⟨rfl, rfl⟩

/-- Claim C9 (amended): an error raised by the scheduled callback is caught
nowhere in `main`'s loop, so it propagates out of `schedule.run_pending()`
and terminates the scheduling loop; the scheduler never re-arms after a
raising run. -/
theorem claim_C9 (i k : Nat) (cbFails : Nat → Bool) (hi : 1 ≤ i) (hk : i < k)
    (hcb : cbFails 0 = true) :
    runTimesE i cbFails k = .error "sync_folders raised" :=
  schedSimE_first_raise i cbFails k 0 i (by omega) (by omega) hcb

/-- Claim C9, witness at interval 2 over 5 ticks. -/
theorem claim_C9_witness :
    (1 ≤ 2 ∧ 2 < 5 ∧ (fun _ : Nat => true) 0 = true) ∧
    runTimesE 2 (fun _ => true) 5 = .error "sync_folders raised" :=
  ⟨⟨by omega, by omega, rfl⟩, claim_C9 2 5 (fun _ => true) (by omega) (by omega) rfl⟩

/-- Claim C10: a name present as a file on both sides that the shallow
comparison reports identical is not in `left_only`, `diff_files`,
`common_dirs` or `right_only`, so `sync_folders` performs no operation on it:
the replica keeps exactly its pre-run entry, metadata and content included. -/
theorem claim_C10 {src rpl : List (String × FSTree)} {n : String}
    {a b : FileData} (hs : lookup src n = some (FSTree.file a))
    (hr : lookup rpl n = some (FSTree.file b))
    (heq : shallowEq a b = true) :
    lookup (sync_folders src rpl).1 n = some (FSTree.file b) :=
  lookup_sync_same_file hs hr heq

/-- Claim C10, witness: the two files share size and mtime but have different
content (the shallow policy calls them identical); the replica file keeps its
own content after the run. -/
theorem claim_C10_witness :
    shallowEq ⟨5, 7, 1⟩ ⟨5, 7, 2⟩ = true ∧
    lookup (sync_folders [("f", FSTree.file ⟨5, 7, 1⟩)]
        [("f", FSTree.file ⟨5, 7, 2⟩)]).1 "f" = some (FSTree.file ⟨5, 7, 2⟩) :=
  ⟨by decide, claim_C10 (a := ⟨5, 7, 1⟩) (b := ⟨5, 7, 2⟩)
    (by simp [lookup]) (by simp [lookup]) (by decide)⟩
